import Mathlib

set_option maxRecDepth 10000

/-!
Verification of `transform_citations.py`: a one-shot script that reads one
file, applies the regex substitution
`re.sub(r'(".*?)\s+-\s+(.*?)(",)', replace_citation, content)`
once to the whole content, writes the result back to the same path, and then
prints a fixed confirmation message.

The regex engine's behaviour on this specific pattern is embedded below as
executable functions on `List Char`:
  * group 1 is `".*?` — a literal double-quote followed by a lazy run of
    non-newline characters;
  * the separator is `\s+-\s+` — a greedy nonempty whitespace run, a hyphen,
    another greedy nonempty whitespace run (with backtracking);
  * group 2 is `.*?` — a lazy run of non-newline characters;
  * group 3 is the literal `",`.
`re.sub` scans left to right, replaces every non-overlapping match, and
resumes scanning right after each match.
-/

/-- The set of code points matched by Python's `\s` on `str` inputs. -/
def pyWsCodes : List Nat :=
  [0x9, 0xA, 0xB, 0xC, 0xD, 0x1C, 0x1D, 0x1E, 0x1F, 0x20, 0x85, 0xA0, 0x1680,
   0x2028, 0x2029, 0x202F, 0x205F, 0x3000]

/-- Whether a character is matched by Python's regex class `\s`. -/
def pyWs (c : Char) : Bool :=
  pyWsCodes.contains c.toNat || (Nat.ble 0x2000 c.toNat && Nat.ble c.toNat 0x200A)

/-- Length of the maximal whitespace run at the head of the string: what a
greedy `\s+`/`\s*` consumes before any backtracking. -/
def wsRun : List Char → Nat
  | [] => 0
  | c :: cs => if pyWs c then wsRun cs + 1 else 0

/-- Lazy match of `(.*?)(",)` at the head of the string: the shortest prefix
of non-newline characters followed by the literal `",`.  Returns the
characters of group 2 and the remainder after the match. -/
def findClose : List Char → Option (List Char × List Char)
  | [] => none
  | c :: cs =>
    if c = '"' ∧ cs.head? = some ',' then some ([], cs.tail)
    else if c = '\n' then none
    else (findClose cs).map fun p => (c :: p.1, p.2)

/-- Backtracking over the second `\s+`: `sepTail s j` tries to consume `j`
whitespace characters (the greedy engine starts from the maximal run and
retreats one character at a time, never below one) and then match
`(.*?)(",)`. -/
def sepTail (s : List Char) : Nat → Option (List Char × List Char)
  | 0 => none
  | j + 1 =>
    match findClose (s.drop (j + 1)) with
    | some p => some p
    | none => sepTail s j

/-- Match of `\s+-\s+(.*?)(",)` at the head of the string.  The first `\s+`
is greedy but is immediately followed by the literal `-`, so only the full
whitespace run can succeed. -/
def matchSep (s : List Char) : Option (List Char × List Char) :=
  if wsRun s = 0 then none
  else if (s.drop (wsRun s)).head? = some '-' then
    sepTail (s.drop (wsRun s)).tail (wsRun (s.drop (wsRun s)).tail)
  else none

/-- Match of `.*?\s+-\s+(.*?)(",)` — the pattern after its leading quote —
at the head of the string.  The lazy `.*?` of group 1 prefers the shortest
extension: at each position the engine first tries the separator and only
then consumes one more (non-newline) character.  Returns the tail of
group 1, group 2, and the remainder after the match. -/
def matchAfterQuote : List Char → Option (List Char × List Char × List Char)
  | [] => none
  | c :: cs =>
    match matchSep (c :: cs) with
    | some p => some ([], p.1, p.2)
    | none =>
      if c = '\n' then none
      else (matchAfterQuote cs).map fun q => (c :: q.1, q.2.1, q.2.2)

/-- Match of the full pattern `(".*?)\s+-\s+(.*?)(",)` anchored at the head
of the string.  Returns group 1 (including its opening quote), group 2, and
the remainder of the string after the match. -/
def matchQuote : List Char → Option (List Char × List Char × List Char)
  | [] => none
  | c :: cs =>
    if c = '"' then (matchAfterQuote cs).map fun q => ('"' :: q.1, q.2.1, q.2.2)
    else none

/-- The replacement callback of the script:
`f'{quote_part} ({author_part}){closing}'` with `closing = '",'`. -/
def replace_citation (quote_part author_part : List Char) : List Char :=
  quote_part ++ ' ' :: '(' :: (author_part ++ [')', '"', ','])

/-- Fuelled worker for `re.sub`: scan left to right; at a match emit the
replacement and resume after the match, otherwise copy one character. -/
def subGo : Nat → List Char → List Char
  | 0, s => s
  | _ + 1, [] => []
  | fuel + 1, c :: cs =>
    match matchQuote (c :: cs) with
    | some q => replace_citation q.1 q.2.1 ++ subGo fuel q.2.2
    | none => c :: subGo fuel cs

/-- `re.sub(pattern, replace_citation, content)`: the whole-text transform
applied by the script. -/
def transform (s : List Char) : List Char := subGo s.length s

/-- Whether the pattern matches anywhere in the string (i.e. `re.sub`
rewrites something). -/
def hasMatchB : List Char → Bool
  | [] => false
  | c :: cs => (matchQuote (c :: cs)).isSome || hasMatchB cs

/-- Whether `p` occurs as a contiguous substring of the second argument. -/
def containsSub (p : List Char) : List Char → Bool
  | [] => p.isEmpty
  | c :: cs => p.isPrefixOf (c :: cs) || containsSub p cs

/-- Declaratively, the string contains an occurrence of the citation
pattern: a double-quote, a lazy run of (non-newline) characters, a separator
made of one-or-more whitespace characters, a hyphen and one-or-more
whitespace characters, a lazy run of (non-newline) characters, and
immediately a closing double-quote and a comma. -/
def hasCitation (s : List Char) : Prop :=
  ∃ p g1t ws1 ws2 g2 r : List Char,
    s = p ++ '"' :: (g1t ++ (ws1 ++ ('-' :: (ws2 ++ (g2 ++ ('"' :: (',' :: r))))))) ∧
    ws1 ≠ [] ∧ ws2 ≠ [] ∧
    (∀ c ∈ ws1, pyWs c = true) ∧ (∀ c ∈ ws2, pyWs c = true) ∧
    (∀ c ∈ g1t, c ≠ '\n') ∧ (∀ c ∈ g2, c ≠ '\n')

/-- The fixed confirmation message printed by the script. -/
def successMsg : List Char := "Citations transformed successfully!".data

/-- Observable events of a run, in program order. -/
inductive Ev where
  | readEv : List Char → Ev
  | writeEv : List Char → Ev
  | printEv : List Char → Ev
deriving DecidableEq

/-- The state of the world the script runs against: the content of the
hard-coded target file and whether that file can be opened for reading
resp. writing. -/
structure World where
  file : List Char
  readable : Bool
  writable : Bool
deriving DecidableEq

/-- Result of a run: the final content of the target file, the observable
events in order, and whether the process exited successfully (`false` means
an uncaught exception terminated it with a nonzero status). -/
structure RunResult where
  finalFile : List Char
  events : List Ev
  exitOk : Bool
deriving DecidableEq

/-- The whole script, straight-line: open/read (an unreadable file raises
before anything happens), transform, open/write (an unwritable file raises
before the file is touched, after the read), then print the confirmation.
An uncaught exception stops the run at that point with a nonzero exit. -/
def runScript (w : World) : RunResult :=
  if w.readable = false then
    { finalFile := w.file, events := [], exitOk := false }
  else if w.writable = false then
    { finalFile := w.file, events := [Ev.readEv w.file], exitOk := false }
  else
    { finalFile := transform w.file,
      events := [Ev.readEv w.file, Ev.writeEv (transform w.file),
                 Ev.printEv successMsg],
      exitOk := true }

/-! ### Unfolding equations (all definitional) -/

theorem wsRun_cons (c : Char) (cs : List Char) :
    wsRun (c :: cs) = if pyWs c then wsRun cs + 1 else 0 := rfl

theorem findClose_cons (c : Char) (cs : List Char) :
    findClose (c :: cs) =
      if c = '"' ∧ cs.head? = some ',' then some ([], cs.tail)
      else if c = '\n' then none
      else (findClose cs).map fun p => (c :: p.1, p.2) := rfl

theorem sepTail_zero (s : List Char) : sepTail s 0 = none := rfl

theorem sepTail_succ_some {s : List Char} {j : Nat} {p : List Char × List Char}
    (h : findClose (s.drop (j + 1)) = some p) : sepTail s (j + 1) = some p := by
  show (match findClose (s.drop (j + 1)) with
        | some p => some p
        | none => sepTail s j) = some p
  rw [h]

theorem sepTail_succ_none {s : List Char} {j : Nat}
    (h : findClose (s.drop (j + 1)) = none) : sepTail s (j + 1) = sepTail s j := by
  show (match findClose (s.drop (j + 1)) with
        | some p => some p
        | none => sepTail s j) = sepTail s j
  rw [h]

theorem matchAfterQuote_cons_some {c : Char} {cs : List Char} {p : List Char × List Char}
    (h : matchSep (c :: cs) = some p) :
    matchAfterQuote (c :: cs) = some ([], p.1, p.2) := by
  show (match matchSep (c :: cs) with
        | some p => some ([], p.1, p.2)
        | none =>
          if c = '\n' then none
          else (matchAfterQuote cs).map
            fun q : List Char × List Char × List Char => (c :: q.1, q.2.1, q.2.2)) =
      some ([], p.1, p.2)
  rw [h]

theorem matchAfterQuote_cons_none {c : Char} {cs : List Char}
    (h : matchSep (c :: cs) = none) :
    matchAfterQuote (c :: cs) =
      if c = '\n' then none
      else (matchAfterQuote cs).map fun q => (c :: q.1, q.2.1, q.2.2) := by
  show (match matchSep (c :: cs) with
        | some p => some ([], p.1, p.2)
        | none =>
          if c = '\n' then none
          else (matchAfterQuote cs).map
            fun q : List Char × List Char × List Char => (c :: q.1, q.2.1, q.2.2)) = _
  rw [h]

theorem matchQuote_cons (c : Char) (cs : List Char) :
    matchQuote (c :: cs) =
      if c = '"' then (matchAfterQuote cs).map fun q => ('"' :: q.1, q.2.1, q.2.2)
      else none := rfl

theorem subGo_succ_some {f : Nat} {c : Char} {cs : List Char}
    {q : List Char × List Char × List Char} (h : matchQuote (c :: cs) = some q) :
    subGo (f + 1) (c :: cs) = replace_citation q.1 q.2.1 ++ subGo f q.2.2 := by
  show (match matchQuote (c :: cs) with
        | some q => replace_citation q.1 q.2.1 ++ subGo f q.2.2
        | none => c :: subGo f cs) = _
  rw [h]

theorem subGo_succ_none {f : Nat} {c : Char} {cs : List Char}
    (h : matchQuote (c :: cs) = none) :
    subGo (f + 1) (c :: cs) = c :: subGo f cs := by
  show (match matchQuote (c :: cs) with
        | some q => replace_citation q.1 q.2.1 ++ subGo f q.2.2
        | none => c :: subGo f cs) = _
  rw [h]

theorem subGo_nil (f : Nat) : subGo f [] = [] := by cases f <;> rfl

/-! ### Facts about the whitespace run -/

theorem wsRun_take_ws : ∀ (s : List Char) (k : Nat), k ≤ wsRun s →
    ∀ c ∈ s.take k, pyWs c = true := by
  intro s
  induction s with
  | nil => intro k _ c hc; simp at hc
  | cons a as ih =>
    intro k hk c hc
    cases k with
    | zero => simp at hc
    | succ k' =>
      rw [wsRun_cons] at hk
      by_cases ha : pyWs a
      · rw [if_pos ha] at hk
        simp only [List.take_succ_cons] at hc
        rcases List.mem_cons.mp hc with rfl | hc'
        · exact ha
        · exact ih k' (by omega) c hc'
      · rw [if_neg ha] at hk
        omega

theorem wsRun_append_ws : ∀ (a l : List Char), (∀ c ∈ a, pyWs c = true) →
    wsRun (a ++ l) = a.length + wsRun l := by
  intro a
  induction a with
  | nil => intro l _; simp
  | cons c a' ih =>
    intro l h
    have hc : pyWs c = true := h c (List.mem_cons_self c a')
    have h' : ∀ x ∈ a', pyWs x = true := fun x hx => h x (List.mem_cons_of_mem c hx)
    rw [List.cons_append, wsRun_cons, if_pos hc, ih l h', List.length_cons]
    omega

theorem wsRun_append_le : ∀ (a : List Char) (b : Char) (l : List Char),
    pyWs b = false → wsRun (a ++ b :: l) ≤ a.length := by
  intro a
  induction a with
  | nil => intro b l hb; simp [wsRun_cons, hb]
  | cons c a' ih =>
    intro b l hb
    rw [List.cons_append, wsRun_cons, List.length_cons]
    by_cases hc : pyWs c
    · rw [if_pos hc]
      have := ih b l hb
      omega
    · rw [if_neg hc]
      omega

/-! ### Soundness and completeness of the lazy `(.*?)(",)` matcher -/

theorem findClose_sound : ∀ {s g2 r : List Char}, findClose s = some (g2, r) →
    s = g2 ++ ('"' :: (',' :: r)) ∧ ∀ c ∈ g2, c ≠ '\n' := by
  intro s
  induction s with
  | nil => intro g2 r h; simp [findClose] at h
  | cons c cs ih =>
    intro g2 r h
    rw [findClose_cons] at h
    by_cases h1 : c = '"' ∧ cs.head? = some ','
    · rw [if_pos h1] at h
      obtain ⟨hc, hh⟩ := h1
      cases cs with
      | nil => simp at hh
      | cons d ds =>
        simp only [List.head?_cons, Option.some.injEq] at hh
        simp only [List.tail_cons, Option.some.injEq, Prod.mk.injEq] at h
        obtain ⟨hg, hr⟩ := h
        subst hc hh hg hr
        simp
    · rw [if_neg h1] at h
      by_cases h2 : c = '\n'
      · rw [if_pos h2] at h
        exact absurd h (by simp)
      · rw [if_neg h2] at h
        rw [Option.map_eq_some'] at h
        obtain ⟨p, hp, hpe⟩ := h
        obtain ⟨hs, hnl⟩ := ih hp
        obtain ⟨p1, p2⟩ := p
        simp only [Prod.mk.injEq] at hpe
        obtain ⟨hg, hr⟩ := hpe
        subst hg hr hs
        refine ⟨by simp, ?_⟩
        intro x hx
        rcases List.mem_cons.mp hx with rfl | hx'
        · exact h2
        · exact hnl x hx'

theorem findClose_complete : ∀ (u r : List Char), (∀ c ∈ u, c ≠ '\n') →
    ∃ p, findClose (u ++ ('"' :: (',' :: r))) = some p := by
  intro u
  induction u with
  | nil =>
    intro r _
    refine ⟨([], r), ?_⟩
    rw [List.nil_append, findClose_cons, if_pos (by simp)]
    rfl
  | cons c cs ih =>
    intro r hu
    have hc : c ≠ '\n' := hu c (List.mem_cons_self c cs)
    obtain ⟨p, hp⟩ := ih r (fun x hx => hu x (List.mem_cons_of_mem c hx))
    rw [List.cons_append]
    by_cases h1 : c = '"' ∧ (cs ++ ('"' :: (',' :: r))).head? = some ','
    · refine ⟨([], (cs ++ ('"' :: (',' :: r))).tail), ?_⟩
      rw [findClose_cons, if_pos h1]
    · refine ⟨(c :: p.1, p.2), ?_⟩
      rw [findClose_cons, if_neg h1, if_neg hc, hp, Option.map_some']

theorem sepTail_sound {s : List Char} : ∀ {j : Nat} {g2 r : List Char},
    sepTail s j = some (g2, r) →
    ∃ k, 1 ≤ k ∧ k ≤ j ∧ s.drop k = g2 ++ ('"' :: (',' :: r)) ∧ ∀ c ∈ g2, c ≠ '\n' := by
  intro j
  induction j with
  | zero => intro g2 r h; simp [sepTail_zero] at h
  | succ j ih =>
    intro g2 r h
    cases hfc : findClose (s.drop (j + 1)) with
    | some p =>
      rw [sepTail_succ_some hfc] at h
      obtain ⟨p1, p2⟩ := p
      simp only [Option.some.injEq, Prod.mk.injEq] at h
      obtain ⟨hg, hr⟩ := h
      subst hg hr
      obtain ⟨hd, hnl⟩ := findClose_sound hfc
      exact ⟨j + 1, by omega, le_rfl, hd, hnl⟩
    | none =>
      rw [sepTail_succ_none hfc] at h
      obtain ⟨k, hk1, hk2, hd, hnl⟩ := ih h
      exact ⟨k, hk1, by omega, hd, hnl⟩

theorem matchSep_sound {s g2 r : List Char} (h : matchSep s = some (g2, r)) :
    ∃ ws1 ws2, s = ws1 ++ ('-' :: (ws2 ++ (g2 ++ ('"' :: (',' :: r))))) ∧
      ws1 ≠ [] ∧ ws2 ≠ [] ∧ (∀ c ∈ ws1, pyWs c = true) ∧ (∀ c ∈ ws2, pyWs c = true) ∧
      (∀ c ∈ g2, c ≠ '\n') := by
  unfold matchSep at h
  split_ifs at h with h0 h1
  cases hd : s.drop (wsRun s) with
  | nil => rw [hd] at h1; simp at h1
  | cons x t =>
    rw [hd] at h1 h
    simp only [List.head?_cons, Option.some.injEq] at h1
    subst h1
    simp only [List.tail_cons] at h
    obtain ⟨k, hk1, hk2, hdk, hnl⟩ := sepTail_sound h
    have hmlt : wsRun s < s.length := by
      by_contra hle
      rw [List.drop_eq_nil_of_le (by omega)] at hd
      exact absurd hd (by simp)
    have hklt : k < t.length := by
      by_contra hle
      rw [List.drop_eq_nil_of_le (by omega)] at hdk
      exact absurd hdk (by simp)
    refine ⟨s.take (wsRun s), t.take k, ?_, ?_, ?_, ?_, ?_, hnl⟩
    · conv_lhs => rw [← List.take_append_drop (wsRun s) s]
      rw [hd]
      conv_lhs => rw [← List.take_append_drop k t]
      rw [hdk]
    · intro hnil
      have := congrArg List.length hnil
      simp only [List.length_take, List.length_nil] at this
      omega
    · intro hnil
      have := congrArg List.length hnil
      simp only [List.length_take, List.length_nil] at this
      omega
    · exact wsRun_take_ws s (wsRun s) le_rfl
    · exact wsRun_take_ws t k hk2

theorem matchSep_complete {ws1 ws2 g2 : List Char} (r : List Char)
    (hws1 : ws1 ≠ []) (hws2 : ws2 ≠ [])
    (h1 : ∀ c ∈ ws1, pyWs c = true) (h2 : ∀ c ∈ ws2, pyWs c = true)
    (hg : ∀ c ∈ g2, c ≠ '\n') :
    ∃ q, matchSep (ws1 ++ ('-' :: (ws2 ++ (g2 ++ ('"' :: (',' :: r)))))) = some q := by
  set t : List Char := ws2 ++ (g2 ++ ('"' :: (',' :: r))) with ht
  set s : List Char := ws1 ++ ('-' :: t) with hs
  have hw : wsRun ('-' :: t) = 0 := by
    rw [wsRun_cons, if_neg (by decide)]
  have hm : wsRun s = ws1.length := by
    rw [hs, wsRun_append_ws ws1 ('-' :: t) h1, hw]
    omega
  have hm0 : ¬ wsRun s = 0 := by
    rw [hm]
    intro h0
    exact hws1 (List.length_eq_zero.mp h0)
  have hdrop : s.drop (wsRun s) = '-' :: t := by
    rw [hm, hs, List.drop_left]
  have hws2pos : 1 ≤ ws2.length := by
    cases ws2 with
    | nil => exact absurd rfl hws2
    | cons _ _ => simp
  have hjlo : ws2.length ≤ wsRun t := by
    rw [ht, wsRun_append_ws ws2 _ h2]
    omega
  have hjhi : wsRun t ≤ ws2.length + g2.length := by
    have h' : wsRun ((ws2 ++ g2) ++ ('"' :: (',' :: r))) ≤ (ws2 ++ g2).length :=
      wsRun_append_le (ws2 ++ g2) '"' (',' :: r) (by decide)
    rw [List.append_assoc] at h'
    rw [ht]
    simpa [List.length_append] using h'
  have hdtg : ∀ n, ws2.length ≤ n → n ≤ ws2.length + g2.length →
      t.drop n = g2.drop (n - ws2.length) ++ ('"' :: (',' :: r)) := by
    intro n hlo hhi
    rw [ht, show ws2 ++ (g2 ++ ('"' :: (',' :: r))) = (ws2 ++ g2) ++ ('"' :: (',' :: r))
        from (List.append_assoc ws2 g2 _).symm]
    rw [List.drop_append_eq_append_drop,
        Nat.sub_eq_zero_of_le (by rw [List.length_append]; omega), List.drop_zero,
        List.drop_append_eq_append_drop, List.drop_eq_nil_of_le hlo, List.nil_append]
  have hdt : t.drop (wsRun t) =
      g2.drop (wsRun t - ws2.length) ++ ('"' :: (',' :: r)) := hdtg (wsRun t) hjlo hjhi
  obtain ⟨p, hp⟩ := findClose_complete (g2.drop (wsRun t - ws2.length)) r
    (fun c hc => hg c (List.mem_of_mem_drop hc))
  have hp' : findClose (t.drop (wsRun t)) = some p := by rw [hdt]; exact hp
  obtain ⟨j, hj⟩ : ∃ j, wsRun t = j + 1 := ⟨wsRun t - 1, by omega⟩
  have hst : sepTail t (wsRun t) = some p := by
    rw [hj]
    exact sepTail_succ_some (by rw [← hj]; exact hp')
  refine ⟨p, ?_⟩
  unfold matchSep
  rw [if_neg hm0, hdrop]
  simp only [List.head?_cons, List.tail_cons, Option.some.injEq, if_pos]
  exact hst

theorem matchAfterQuote_sound : ∀ {s g1t g2 r : List Char},
    matchAfterQuote s = some (g1t, g2, r) →
    ∃ ws1 ws2, s = g1t ++ (ws1 ++ ('-' :: (ws2 ++ (g2 ++ ('"' :: (',' :: r)))))) ∧
      ws1 ≠ [] ∧ ws2 ≠ [] ∧ (∀ c ∈ ws1, pyWs c = true) ∧ (∀ c ∈ ws2, pyWs c = true) ∧
      (∀ c ∈ g1t, c ≠ '\n') ∧ (∀ c ∈ g2, c ≠ '\n') := by
  intro s
  induction s with
  | nil => intro g1t g2 r h; simp [matchAfterQuote] at h
  | cons c cs ih =>
    intro g1t g2 r h
    cases hms : matchSep (c :: cs) with
    | some p =>
      rw [matchAfterQuote_cons_some hms] at h
      obtain ⟨p1, p2⟩ := p
      simp only [Option.some.injEq, Prod.mk.injEq] at h
      obtain ⟨hg1, hg2, hr⟩ := h
      subst hg1 hg2 hr
      obtain ⟨ws1, ws2, hsplit, hws1, hws2, hw1, hw2, hnl⟩ := matchSep_sound hms
      exact ⟨ws1, ws2, by rw [List.nil_append]; exact hsplit, hws1, hws2, hw1, hw2,
        by simp, hnl⟩
    | none =>
      rw [matchAfterQuote_cons_none hms] at h
      by_cases hc : c = '\n'
      · rw [if_pos hc] at h
        exact absurd h (by simp)
      · rw [if_neg hc] at h
        rw [Option.map_eq_some'] at h
        obtain ⟨q, hq, hqe⟩ := h
        obtain ⟨q1, q2, q3⟩ := q
        simp only [Prod.mk.injEq] at hqe
        obtain ⟨hg1, hg2, hr⟩ := hqe
        subst hg1 hg2 hr
        obtain ⟨ws1, ws2, hsplit, hws1, hws2, hw1, hw2, hnl1, hnl2⟩ := ih hq
        refine ⟨ws1, ws2, ?_, hws1, hws2, hw1, hw2, ?_, hnl2⟩
        · rw [List.cons_append, ← hsplit]
        · intro x hx
          rcases List.mem_cons.mp hx with rfl | hx'
          · exact hc
          · exact hnl1 x hx'

theorem matchAfterQuote_complete : ∀ (g1t : List Char) {ws1 ws2 g2 : List Char}
    (r : List Char), (∀ c ∈ g1t, c ≠ '\n') → ws1 ≠ [] → ws2 ≠ [] →
    (∀ c ∈ ws1, pyWs c = true) → (∀ c ∈ ws2, pyWs c = true) → (∀ c ∈ g2, c ≠ '\n') →
    ∃ q, matchAfterQuote (g1t ++ (ws1 ++ ('-' :: (ws2 ++ (g2 ++ ('"' :: (',' :: r))))))) =
      some q := by
  intro g1t
  induction g1t with
  | nil =>
    intro ws1 ws2 g2 r _ hws1 hws2 h1 h2 hg
    obtain ⟨q, hq⟩ := matchSep_complete r hws1 hws2 h1 h2 hg
    cases ws1 with
    | nil => exact absurd rfl hws1
    | cons w ws' =>
      rw [List.cons_append] at hq
      refine ⟨([], q.1, q.2), ?_⟩
      rw [List.nil_append, List.cons_append]
      exact matchAfterQuote_cons_some hq
  | cons c g1t' ih =>
    intro ws1 ws2 g2 r hnl hws1 hws2 h1 h2 hg
    have hc : c ≠ '\n' := hnl c (List.mem_cons_self c g1t')
    obtain ⟨q, hq⟩ := ih r (fun x hx => hnl x (List.mem_cons_of_mem c hx)) hws1 hws2 h1 h2 hg
    rw [List.cons_append]
    cases hms : matchSep (c :: (g1t' ++ (ws1 ++ ('-' :: (ws2 ++ (g2 ++ ('"' :: (',' :: r)))))))) with
    | some p => exact ⟨([], p.1, p.2), matchAfterQuote_cons_some hms⟩
    | none =>
      refine ⟨(c :: q.1, q.2.1, q.2.2), ?_⟩
      rw [matchAfterQuote_cons_none hms, if_neg hc, hq, Option.map_some']

theorem matchQuote_sound {s g1 g2 r : List Char} (h : matchQuote s = some (g1, g2, r)) :
    ∃ g1t ws1 ws2, g1 = '"' :: g1t ∧
      s = g1 ++ (ws1 ++ ('-' :: (ws2 ++ (g2 ++ ('"' :: (',' :: r)))))) ∧
      ws1 ≠ [] ∧ ws2 ≠ [] ∧ (∀ c ∈ ws1, pyWs c = true) ∧ (∀ c ∈ ws2, pyWs c = true) ∧
      (∀ c ∈ g1t, c ≠ '\n') ∧ (∀ c ∈ g2, c ≠ '\n') := by
  cases s with
  | nil => simp [matchQuote] at h
  | cons c cs =>
    rw [matchQuote_cons] at h
    by_cases hc : c = '"'
    · rw [if_pos hc] at h
      rw [Option.map_eq_some'] at h
      obtain ⟨q, hq, hqe⟩ := h
      obtain ⟨q1, q2, q3⟩ := q
      simp only [Prod.mk.injEq] at hqe
      obtain ⟨hg1, hg2, hr⟩ := hqe
      subst hg2 hr
      obtain ⟨ws1, ws2, hsplit, hws1, hws2, hw1, hw2, hnl1, hnl2⟩ := matchAfterQuote_sound hq
      subst hc
      refine ⟨q1, ws1, ws2, hg1.symm, ?_, hws1, hws2, hw1, hw2, hnl1, hnl2⟩
      rw [← hg1, List.cons_append, hsplit]
    · rw [if_neg hc] at h
      exact absurd h (by simp)

theorem matchQuote_complete {g1t ws1 ws2 g2 : List Char} (r : List Char)
    (hnl : ∀ c ∈ g1t, c ≠ '\n') (hws1 : ws1 ≠ []) (hws2 : ws2 ≠ [])
    (h1 : ∀ c ∈ ws1, pyWs c = true) (h2 : ∀ c ∈ ws2, pyWs c = true)
    (hg : ∀ c ∈ g2, c ≠ '\n') :
    ∃ q, matchQuote ('"' :: (g1t ++ (ws1 ++ ('-' :: (ws2 ++ (g2 ++ ('"' :: (',' :: r)))))))) =
      some q := by
  obtain ⟨q, hq⟩ := matchAfterQuote_complete g1t r hnl hws1 hws2 h1 h2 hg
  refine ⟨('"' :: q.1, q.2.1, q.2.2), ?_⟩
  rw [matchQuote_cons, if_pos rfl, hq, Option.map_some']

/-! ### Equations for the whole-text substitution -/

theorem matchQuote_rest_length {s g1 g2 r : List Char}
    (h : matchQuote s = some (g1, g2, r)) : r.length + 5 ≤ s.length := by
  obtain ⟨g1t, ws1, ws2, hg1, hsplit, hws1, hws2, _, _, _, _⟩ := matchQuote_sound h
  have l1 : 1 ≤ ws1.length := by
    cases ws1 with
    | nil => exact absurd rfl hws1
    | cons _ _ => simp
  have l2 : 1 ≤ ws2.length := by
    cases ws2 with
    | nil => exact absurd rfl hws2
    | cons _ _ => simp
  have := congrArg List.length hsplit
  simp only [List.length_append, List.length_cons, hg1] at this
  omega

theorem subGo_congr : ∀ (n : Nat) (s : List Char) (f₁ f₂ : Nat),
    s.length ≤ n → s.length ≤ f₁ → s.length ≤ f₂ → subGo f₁ s = subGo f₂ s := by
  intro n
  induction n with
  | zero =>
    intro s f₁ f₂ hn _ _
    have hs : s = [] := List.length_eq_zero.mp (by omega)
    subst hs
    rw [subGo_nil, subGo_nil]
  | succ n ih =>
    intro s f₁ f₂ hn h1 h2
    cases s with
    | nil => rw [subGo_nil, subGo_nil]
    | cons c cs =>
      simp only [List.length_cons] at hn h1 h2
      obtain ⟨a, ha⟩ : ∃ a, f₁ = a + 1 := ⟨f₁ - 1, by omega⟩
      obtain ⟨b, hb⟩ : ∃ b, f₂ = b + 1 := ⟨f₂ - 1, by omega⟩
      subst ha hb
      cases hm : matchQuote (c :: cs) with
      | some q =>
        obtain ⟨g1, g2, r⟩ := q
        have hr : r.length ≤ cs.length := by
          have h5 := matchQuote_rest_length hm
          simp only [List.length_cons] at h5
          omega
        rw [subGo_succ_some hm, subGo_succ_some hm]
        dsimp only
        rw [ih r a b (by omega) (by omega) (by omega)]
      | none =>
        rw [subGo_succ_none hm, subGo_succ_none hm,
            ih cs a b (by omega) (by omega) (by omega)]

theorem transform_match {c : Char} {cs g1 g2 r : List Char}
    (h : matchQuote (c :: cs) = some (g1, g2, r)) :
    transform (c :: cs) = replace_citation g1 g2 ++ transform r := by
  have hr : r.length ≤ cs.length := by
    have := matchQuote_rest_length h
    simp only [List.length_cons] at this
    omega
  show subGo (c :: cs).length (c :: cs) = _
  rw [List.length_cons, subGo_succ_some h]
  rw [subGo_congr cs.length r cs.length r.length hr hr le_rfl]
  rfl

theorem transform_nomatch {c : Char} {cs : List Char}
    (h : matchQuote (c :: cs) = none) :
    transform (c :: cs) = c :: transform cs := by
  show subGo (c :: cs).length (c :: cs) = _
  rw [List.length_cons, subGo_succ_none h]
  rfl

theorem transform_of_not_hasMatch : ∀ {s : List Char},
    hasMatchB s = false → transform s = s := by
  intro s
  induction s with
  | nil => intro _; rfl
  | cons c cs ih =>
    intro h
    simp only [hasMatchB, Bool.or_eq_false_iff] at h
    obtain ⟨h1, h2⟩ := h
    have hm : matchQuote (c :: cs) = none := by
      cases hm : matchQuote (c :: cs) with
      | none => rfl
      | some q => rw [hm] at h1; simp at h1
    rw [transform_nomatch hm, ih h2]

/-! ### The pattern occurs iff the engine rewrites something -/

theorem hasCitation_of_hasMatch : ∀ {s : List Char},
    hasMatchB s = true → hasCitation s := by
  intro s
  induction s with
  | nil => intro h; simp [hasMatchB] at h
  | cons c cs ih =>
    intro h
    simp only [hasMatchB, Bool.or_eq_true] at h
    rcases h with h | h
    · rw [Option.isSome_iff_exists] at h
      obtain ⟨q, hq⟩ := h
      obtain ⟨q1, q2, q3⟩ := q
      obtain ⟨g1t, ws1, ws2, hg1, hsplit, hws1, hws2, hw1, hw2, hnl1, hnl2⟩ :=
        matchQuote_sound hq
      refine ⟨[], g1t, ws1, ws2, q2, q3, ?_, hws1, hws2, hw1, hw2, hnl1, hnl2⟩
      rw [List.nil_append, hsplit, hg1, List.cons_append]
    · obtain ⟨p, g1t, ws1, ws2, g2, r, hsplit, hws1, hws2, hw1, hw2, hnl1, hnl2⟩ := ih h
      exact ⟨c :: p, g1t, ws1, ws2, g2, r, by rw [hsplit, List.cons_append], hws1, hws2,
        hw1, hw2, hnl1, hnl2⟩

theorem hasMatchB_append_of_right : ∀ (p u : List Char),
    hasMatchB u = true → hasMatchB (p ++ u) = true := by
  intro p u hu
  induction p with
  | nil => rw [List.nil_append]; exact hu
  | cons c p' ih =>
    rw [List.cons_append]
    simp only [hasMatchB, Bool.or_eq_true]
    exact Or.inr ih

theorem hasMatch_of_hasCitation {s : List Char} (h : hasCitation s) :
    hasMatchB s = true := by
  obtain ⟨p, g1t, ws1, ws2, g2, r, hsplit, hws1, hws2, hw1, hw2, hnl1, hnl2⟩ := h
  obtain ⟨q, hq⟩ := matchQuote_complete r hnl1 hws1 hws2 hw1 hw2 hnl2
  rw [hsplit]
  apply hasMatchB_append_of_right
  simp only [hasMatchB, Bool.or_eq_true]
  exact Or.inl (by rw [hq]; rfl)

theorem transform_ne_of_hasMatch : ∀ {s : List Char},
    hasMatchB s = true → transform s ≠ s := by
  intro s
  induction s with
  | nil => intro h; simp [hasMatchB] at h
  | cons c cs ih =>
    intro h
    cases hm : matchQuote (c :: cs) with
    | some q =>
      obtain ⟨g1, g2, r⟩ := q
      obtain ⟨g1t, ws1, ws2, hg1, hsplit, hws1, hws2, hw1, hw2, _, _⟩ :=
        matchQuote_sound hm
      rw [transform_match hm]
      intro heq
      rw [hsplit] at heq
      unfold replace_citation at heq
      rw [List.append_assoc] at heq
      have heq2 := List.append_cancel_left heq
      rcases ws1 with _ | ⟨w, ws'⟩
      · exact hws1 rfl
      · rw [List.cons_append, List.cons_append, List.cons_append] at heq2
        injection heq2 with hsp heq3
        cases ws' with
        | nil =>
          rw [List.nil_append] at heq3
          injection heq3 with hpar _
          exact absurd hpar (by decide)
        | cons w2 ws'' =>
          rw [List.cons_append] at heq3
          injection heq3 with hpar _
          have hmem : pyWs w2 = true := hw1 w2 (by simp)
          rw [← hpar] at hmem
          exact absurd hmem (by decide)
    | none =>
      rw [transform_nomatch hm]
      have h2 : hasMatchB cs = true := by
        simp only [hasMatchB, hm, Option.isSome_none, Bool.false_or] at h
        exact h
      intro heq
      injection heq with _ heq'
      exact ih h2 heq'

theorem transform_ne_iff (s : List Char) : transform s ≠ s ↔ hasCitation s := by
  constructor
  · intro h
    apply hasCitation_of_hasMatch
    cases hm : hasMatchB s with
    | false => exact absurd (transform_of_not_hasMatch hm) h
    | true => rfl
  · intro h
    exact transform_ne_of_hasMatch (hasMatch_of_hasCitation h)

theorem transform_of_not_hasCitation {s : List Char} (h : ¬ hasCitation s) :
    transform s = s := by
  cases hm : hasMatchB s with
  | false => exact transform_of_not_hasMatch hm
  | true => exact absurd (hasCitation_of_hasMatch hm) h

/-! ### The claims -/

/-- Claim C1: for every input text, a successful run leaves the target file's
final content equal to the regex substitution applied exactly once to the
file's original content (read whole, transform, overwrite the same path), and
only after the write does it print the fixed confirmation message
`Citations transformed successfully!` to standard output (the event trace is
read, then write, then print). -/
theorem claim_C1 (w : World) (hr : w.readable = true) (hw : w.writable = true) :
    (runScript w).finalFile = transform w.file ∧
    (runScript w).exitOk = true ∧
    (runScript w).events =
      [Ev.readEv w.file, Ev.writeEv (transform w.file), Ev.printEv successMsg] := by
  simp [runScript, hr, hw]

/-- Claim C1, witnessed on a concrete world whose file is readable and
writable. -/
theorem claim_C1_witness :
    (runScript ⟨"\"q - a\",".data, true, true⟩).finalFile =
        transform "\"q - a\",".data ∧
    (runScript ⟨"\"q - a\",".data, true, true⟩).exitOk = true ∧
    (runScript ⟨"\"q - a\",".data, true, true⟩).events =
      [Ev.readEv "\"q - a\",".data, Ev.writeEv (transform "\"q - a\",".data),
       Ev.printEv successMsg] :=
  claim_C1 ⟨"\"q - a\",".data, true, true⟩ rfl rfl

/-- Claim C2 counterexample: the input `"q<TAB>-<TAB>a",` contains no literal
space-hyphen-space separator at all, yet the transform rewrites it to
`"q (a)",` — so "rewritten iff the separator is exactly one space on each
side of the hyphen" is false on the code: `\s+` accepts any whitespace. -/
theorem claim_C2_counterexample :
    containsSub " - ".data "\"q\t-\ta\",".data = false ∧
    transform "\"q\t-\ta\",".data = "\"q (a)\",".data ∧
    transform "\"q\t-\ta\",".data ≠ "\"q\t-\ta\",".data :=
  ⟨by decide, by decide, by decide⟩

/-- Claim C2 (amended): a substring is rewritten if and only if the text
contains the shape: a double-quote, then any non-newline characters (lazy),
then a separator made of one-or-more whitespace characters, a hyphen, and
one-or-more whitespace characters, then any non-newline characters (lazy),
then immediately a closing double-quote and a comma. -/
theorem claim_C2_amended : ∀ s : List Char, transform s ≠ s ↔ hasCitation s :=
  transform_ne_iff

/-- Claim C2 (amended), witnessed: `"u - v",` contains the citation shape and
is indeed changed by the transform. -/
theorem claim_C2_amended_witness :
    transform "\"u - v\",".data ≠ "\"u - v\",".data :=
  (claim_C2_amended "\"u - v\",".data).mpr
    ⟨[], ['u'], [' '], [' '], ['v'], [], by decide, by decide, by decide,
     by decide, by decide, by decide, by decide⟩

/-- Claim C3: for every text containing zero occurrences of the citation
pattern, the transform returns the text unchanged (and, being a total
function, signals no error). -/
theorem claim_C3 (T : List Char) (h : ¬ hasCitation T) : transform T = T :=
  transform_of_not_hasCitation h

/-- Claim C3, witnessed on a concrete pattern-free text. -/
theorem claim_C3_witness :
    transform "no citations here".data = "no citations here".data :=
  claim_C3 "no citations here".data
    (fun hc => absurd (hasMatch_of_hasCitation hc) (by decide))

/-- Claim C4: on the specific input `"To be or not to be - Shakespeare",`
the transform produces exactly `"To be or not to be (Shakespeare)",`. -/
theorem claim_C4 :
    transform "\"To be or not to be - Shakespeare\",".data =
      "\"To be or not to be (Shakespeare)\",".data := by decide

/-- Claim C5: the substitution is global — after every match the scan resumes
on the remainder and keeps substituting there, and an input with two
independent matches on separate lines has both rewritten with the
non-matching newline passing through unchanged. -/
theorem claim_C5 :
    (∀ (s g1 g2 r : List Char), matchQuote s = some (g1, g2, r) →
      transform s = replace_citation g1 g2 ++ transform r) ∧
    transform "\"q1 - a1\",\n\"q2 - a2\",".data = "\"q1 (a1)\",\n\"q2 (a2)\",".data := by
  constructor
  · intro s g1 g2 r h
    cases s with
    | nil => simp [matchQuote] at h
    | cons c cs => exact transform_match h
  · decide

/-- Claim C5, witnessed: the whole-text substitution at a concrete match
continues into the remainder of the text. -/
theorem claim_C5_witness :
    transform "\"a - b\",x".data =
      replace_citation "\"a".data "b".data ++ transform "x".data :=
  claim_C5.1 "\"a - b\",x".data "\"a".data "b".data "x".data (by decide)

/-- Claim C6 counterexample: in `"a  -  b - c",` the first hyphen is flanked
by two spaces on each side — not by single spaces — yet it acts as the
separator: the output is `"a (b - c)",`, not the `"a  -  b (c)",` that
resolving to the single-space `" - "` boundary would give. -/
theorem claim_C6_counterexample :
    transform "\"a  -  b - c\",".data = "\"a (b - c)\",".data ∧
    transform "\"a  -  b - c\",".data ≠ "\"a  -  b (c)\",".data :=
  ⟨by decide, by decide⟩

/-- Claim C6 (amended): a hyphen with no whitespace directly before and after
it never acts as the separator — every match's separator hyphen is flanked by
a nonempty whitespace run on each side — and in particular
`"A well-known fact - J. Doe",` produces exactly
`"A well-known fact (J. Doe)",`. -/
theorem claim_C6_amended :
    (∀ (s g1 g2 r : List Char), matchQuote s = some (g1, g2, r) →
      ∃ ws1 ws2, s = g1 ++ (ws1 ++ ('-' :: (ws2 ++ (g2 ++ ('"' :: (',' :: r)))))) ∧
        ws1 ≠ [] ∧ ws2 ≠ [] ∧ (∀ c ∈ ws1, pyWs c = true) ∧ (∀ c ∈ ws2, pyWs c = true)) ∧
    transform "\"A well-known fact - J. Doe\",".data =
      "\"A well-known fact (J. Doe)\",".data := by
  constructor
  · intro s g1 g2 r h
    obtain ⟨g1t, ws1, ws2, _, hsplit, hws1, hws2, hw1, hw2, _, _⟩ := matchQuote_sound h
    exact ⟨ws1, ws2, hsplit, hws1, hws2, hw1, hw2⟩
  · decide

/-- Claim C6 (amended), witnessed: the concrete match in `"k - l",` is
decomposed with whitespace flanking the separator hyphen. -/
theorem claim_C6_witness :
    ∃ ws1 ws2, "\"k - l\",".data =
      "\"k".data ++ (ws1 ++ ('-' :: (ws2 ++ ("l".data ++ ('"' :: (',' :: ([] : List Char))))))) ∧
      ws1 ≠ [] ∧ ws2 ≠ [] ∧ (∀ c ∈ ws1, pyWs c = true) ∧ (∀ c ∈ ws2, pyWs c = true) :=
  claim_C6_amended.1 "\"k - l\",".data "\"k".data "l".data [] (by decide)

/-- Claim C7 counterexample: for `"x - y",<TAB>-<TAB>z",` the single-run
output `"x (y)",<TAB>-<TAB>z",` contains no literal ` - ` anywhere (so none
inside a citation-shaped string), yet a second run still rewrites it — the
tab-separated citation shape that the first run's replacement exposed
re-matches. -/
theorem claim_C7_counterexample :
    containsSub " - ".data (transform "\"x - y\",\t-\tz\",".data) = false ∧
    transform (transform "\"x - y\",\t-\tz\",".data) ≠
      transform "\"x - y\",\t-\tz\",".data :=
  ⟨by decide, by decide⟩

/-- Claim C7 (amended): for every input whose single-run output contains no
occurrence of the citation pattern (whitespace-hyphen-whitespace separator)
at all, a second run returns the first run's output unchanged. -/
theorem claim_C7_amended (T : List Char) (h : ¬ hasCitation (transform T)) :
    transform (transform T) = transform T :=
  transform_of_not_hasCitation h

/-- Claim C7 (amended), witnessed on a concrete input whose output no longer
contains the pattern. -/
theorem claim_C7_amended_witness :
    transform (transform "\"m - n\",".data) = transform "\"m - n\",".data :=
  claim_C7_amended "\"m - n\",".data
    (fun hc => absurd (hasMatch_of_hasCitation hc) (by decide))

/-- Claim C8: every file I/O failure terminates the process with a nonzero
status, the confirmation message is never printed, and a failure at the read
step means no write is attempted and the target file is unchanged. -/
theorem claim_C8 (w : World) (h : w.readable = false ∨ w.writable = false) :
    (runScript w).exitOk = false ∧
    (∀ m, Ev.printEv m ∉ (runScript w).events) ∧
    (w.readable = false →
      (runScript w).finalFile = w.file ∧
      ∀ content, Ev.writeEv content ∉ (runScript w).events) := by
  by_cases hr : w.readable = false
  · simp [runScript, hr]
  · rcases h with h | h
    · exact absurd h hr
    · simp [runScript, hr, h]

/-- Claim C8, witnessed on a concrete world whose file is unreadable. -/
theorem claim_C8_witness :
    (runScript ⟨"t".data, false, true⟩).exitOk = false ∧
    (∀ m, Ev.printEv m ∉ (runScript ⟨"t".data, false, true⟩).events) ∧
    ((false : Bool) = false →
      (runScript ⟨"t".data, false, true⟩).finalFile = "t".data ∧
      ∀ content, Ev.writeEv content ∉ (runScript ⟨"t".data, false, true⟩).events) :=
  claim_C8 ⟨"t".data, false, true⟩ (Or.inl rfl)

/-- Claim C9: the separator accepted by the transform is any run of one or
more whitespace characters on each side of the hyphen (spaces, tabs, even a
newline inside the run), and the entire whitespace-hyphen-whitespace
separator is replaced by exactly one space before the opening parenthesis;
in particular tab-separated and line-break-spanning separators are rewritten
to `"quote (author)",`. -/
theorem claim_C9 :
    (∀ (s g1 g2 r : List Char), matchQuote s = some (g1, g2, r) →
      ∃ ws1 ws2, s = g1 ++ (ws1 ++ ('-' :: (ws2 ++ (g2 ++ ('"' :: (',' :: r)))))) ∧
        ws1 ≠ [] ∧ ws2 ≠ [] ∧ (∀ c ∈ ws1, pyWs c = true) ∧ (∀ c ∈ ws2, pyWs c = true) ∧
        transform s = g1 ++ (' ' :: ('(' :: (g2 ++ (')' :: ('"' :: (',' :: transform r))))))) ∧
    transform "\"m\t-\tn\",".data = "\"m (n)\",".data ∧
    transform "\"m \n- n\",".data = "\"m (n)\",".data := by
  refine ⟨?_, by decide, by decide⟩
  intro s g1 g2 r h
  obtain ⟨g1t, ws1, ws2, _, hsplit, hws1, hws2, hw1, hw2, _, _⟩ := matchQuote_sound h
  refine ⟨ws1, ws2, hsplit, hws1, hws2, hw1, hw2, ?_⟩
  cases s with
  | nil => simp [matchQuote] at h
  | cons c cs =>
    rw [transform_match h]
    unfold replace_citation
    simp [List.append_assoc]

/-- Claim C9, witnessed on a concrete tab-separated citation. -/
theorem claim_C9_witness :
    ∃ ws1 ws2, "\"w\t-\tv\",".data =
      "\"w".data ++ (ws1 ++ ('-' :: (ws2 ++ ("v".data ++ ('"' :: (',' :: ([] : List Char))))))) ∧
      ws1 ≠ [] ∧ ws2 ≠ [] ∧ (∀ c ∈ ws1, pyWs c = true) ∧ (∀ c ∈ ws2, pyWs c = true) ∧
      transform "\"w\t-\tv\",".data =
        "\"w".data ++ (' ' :: ('(' :: ("v".data ++ (')' :: ('"' :: (',' :: transform ([] : List Char))))))) :=
  claim_C9.1 "\"w\t-\tv\",".data "\"w".data "v".data [] (by decide)

/-- Claim C10: empty quote text and empty author text are both accepted:
`" - author",` becomes `" (author)",` and `"quote - ",` becomes
`"quote ()",`. -/
theorem claim_C10 :
    transform "\" - author\",".data = "\" (author)\",".data ∧
    transform "\"quote - \",".data = "\"quote ()\",".data :=
  ⟨by decide, by decide⟩
